import Mathlib

/-!
# Verification of the Fabric workspace deployment orchestrator

Shallow embedding of `.github/scripts/deploy_to_workspace.py`: the content
comparator, the remote-inventory interactions, the dependency-graph builder,
the graph resolver (`resolve_transitive`, `topo_sort`), the LRO poller
(`poll_lro`) and the top-level deployment state machine of `main`.

Modelling conventions:
* Python strings are Lean `String`s; `str.lower()` is modelled for the ASCII
  range (all item-type and status strings in the source are ASCII).
* Python dicts are association lists with insert-or-overwrite (`upsert`) and
  first-match lookup (`alookup`); Python sets are lists used up to membership.
* File bytes are `List Nat`; the InlineBase64 transport encoding of the source
  is a bijection between raw bytes and payload strings and is elided: parts
  carry the decoded bytes directly.
* External library calls (the `zipfile` parser, `json.loads`) are parameters
  of the embedding: the code under verification only branches on their
  results.
* Loops whose termination is not structural are given explicit fuel; the
  wrappers compute fuel from a potential function that is proved sufficient,
  mirroring the unconditional termination of the Python loops.
-/

namespace Deploy

/-- ASCII lower-casing of one character, as `str.lower()` acts on the ASCII
range (`'A'..'Z'` shifted by 32, everything else unchanged). -/
def lowerChar (c : Char) : Char :=
  if 65 ≤ c.toNat ∧ c.toNat ≤ 90 then Char.ofNat (c.toNat + 32) else c

/-- `s.lower()` on ASCII strings. -/
def lowerStr (s : String) : String :=
  String.mk (s.data.map lowerChar)

/-- Lexicographic comparison of character lists by code point, the order
`sorted()` uses on Python strings. -/
def ltChars : List Char → List Char → Bool
  | [], [] => false
  | [], _ :: _ => true
  | _ :: _, [] => false
  | a :: as, b :: bs => if a < b then true else if b < a then false else ltChars as bs

/-- Python `<` on strings. -/
def ltStr (a b : String) : Bool := ltChars a.data b.data

/-- Insert into a sorted list (stable, keeps existing equal elements first). -/
def insertSorted (a : String) : List String → List String
  | [] => [a]
  | b :: bs => if ltStr b a then b :: insertSorted a bs else a :: b :: bs

/-- Python `sorted()` on a list of strings. -/
def sortStr (l : List String) : List String := l.foldr insertSorted []

/-- First-match lookup in an association list (Python dict lookup; the
construction below keeps keys unique, matching dict semantics). -/
def alookup {α β : Type} [DecidableEq α] (k : α) : List (α × β) → Option β
  | [] => none
  | (k', v) :: rest => if k' = k then some v else alookup k rest

/-- Insert-or-overwrite in an association list; an existing key keeps its
position and gets the new value, a fresh key is appended — exactly the
iteration-order behaviour of `d[k] = v` on a Python dict. -/
def upsert {α β : Type} [DecidableEq α] (k : α) (v : β) : List (α × β) → List (α × β)
  | [] => [(k, v)]
  | (k', v') :: rest => if k' = k then (k, v) :: rest else (k', v') :: upsert k v rest

/-- Append to the list stored under a key, creating it if needed
(`d.setdefault(k, []).append(v)`). -/
def upsertAppend {α β : Type} [DecidableEq α] (k : α) (v : β) :
    List (α × List β) → List (α × List β)
  | [] => [(k, [v])]
  | (k', vs) :: rest =>
    if k' = k then (k', vs ++ [v]) :: rest else (k', vs) :: upsertAppend k v rest

/-- A dependency graph: folder name → list of folder names it depends on
(`dict[str, set[str]]` in the source; the set is used up to membership). -/
abbrev GraphT : Type := List (String × List String)

/-- `graph.get(current, set())`. -/
def graphGet (g : GraphT) (k : String) : List String :=
  (alookup k g).getD []

/-- The worklist loop of `resolve_transitive`, with explicit fuel.  Each
iteration pops `current`; a node already in `result` is dropped, otherwise it
is added to `result` and its dependencies not yet in `result` are pushed.
(The push order of Python's set iteration is unspecified; the returned set is
order-independent, see `resolveLoop_mem_final`.) -/
def resolveLoop (g : GraphT) : Nat → List String → List String → List String
  | 0, result, _ => result
  | _ + 1, result, [] => result
  | fuel + 1, result, current :: stack =>
    if current ∈ result then resolveLoop g fuel result stack
    else
      resolveLoop g fuel (current :: result)
        (((graphGet g current).filter (fun d => decide (d ∉ current :: result))) ++ stack)

/-- Maximum out-degree appearing in the graph, used to bound the fuel. -/
def maxDeg (g : GraphT) : Nat := g.foldr (fun p m => Nat.max p.2.length m) 0

/-- Every node the loop can ever push: the start node plus every dependency
mentioned anywhere in the graph. -/
def graphUniv (g : GraphT) (start : String) : List String :=
  start :: (g.map (fun p => p.2)).flatten

/-- Fuel that strictly dominates the loop's potential function. -/
def resolveFuel (g : GraphT) (start : String) : Nat :=
  (maxDeg g + 1) * (graphUniv g start).dedup.length + 2

/-- `resolve_transitive(graph, start)`: `start` plus all of its transitive
dependencies. -/
def resolve_transitive (g : GraphT) (start : String) : List String :=
  resolveLoop g (resolveFuel g start) [] [start]

/-- The recursive `visit` of `topo_sort`, with explicit fuel.  A node already
visited returns immediately; otherwise it is marked visited, its sorted
dependencies that lie in the target set are visited, and the node itself is
appended (post-order emission). -/
def topoVisit (g : GraphT) (items : List String) :
    Nat → String → List String → List String → List String × List String
  | 0, _, visited, result => (visited, result)
  | fuel + 1, item, visited, result =>
    if item ∈ visited then (visited, result)
    else
      let st := (sortStr (graphGet g item)).foldl
        (fun s d => if d ∈ items then topoVisit g items fuel d s.1 s.2 else s)
        (item :: visited, result)
      (st.1, st.2 ++ [item])

/-- `topo_sort(items, graph)`: the requested set in dependency-first order.
The fuel `items.dedup.length + 1` strictly dominates the count of unvisited
items, so the recursion never runs dry (`topoVisit` only recurses on members
of `items` that are freshly marked visited). -/
def topo_sort (items : List String) (g : GraphT) : List String :=
  ((sortStr items.dedup).foldl
    (fun s it => topoVisit g items (items.dedup.length + 1) it s.1 s.2)
    ([], [])).2

/-- One dependency edge of the graph restricted to the target set:
`a` depends on `b`, with both in the set. -/
def EdgeIn (items : List String) (g : GraphT) (a b : String) : Prop :=
  b ∈ graphGet g a ∧ a ∈ items ∧ b ∈ items

/-- Dependency-first ordering of an emitted list: at every occurrence of an
item, all of its in-set dependencies already appear in the preceding prefix. -/
def DepsClosed (g : GraphT) (items : List String) (res : List String) : Prop :=
  ∀ l₁ i l₂, res = l₁ ++ i :: l₂ → ∀ d, d ∈ graphGet g i → d ∈ items → d ∈ l₁

/-- Count of target-set items not yet visited: the DFS potential. -/
def unvisitedCount (items visited : List String) : Nat :=
  (items.dedup.filter (fun x => decide (x ∉ visited))).length

/-- Split a character list at the LAST occurrence of `c`:
`some (before, after)` with `l = before ++ c :: after` and `c ∉ after`,
or `none` when `c` does not occur — the behaviour of `str.rfind`. -/
def splitLast (c : Char) : List Char → Option (List Char × List Char)
  | [] => none
  | a :: as =>
    match splitLast c as with
    | some (p, q) => some (a :: p, q)
    | none => if a = c then some ([], as) else none

/-- `folder_name.rfind "."` followed by the two slices: the last-dot split of
an item folder name into `(display_name, item_type)`. -/
def splitLastDot (s : String) : Option (String × String) :=
  match splitLast '.' s.data with
  | some (p, q) => some (String.mk p, String.mk q)
  | none => none

/-- Generic insertion into a sorted list by a boolean strict order. -/
def insertBy {α : Type} (lt : α → α → Bool) (a : α) : List α → List α
  | [] => [a]
  | b :: bs => if lt b a then b :: insertBy lt a bs else a :: b :: bs

/-- Generic stable sort (`sorted()` with the given strict order). -/
def sortBy {α : Type} (lt : α → α → Bool) (l : List α) : List α :=
  l.foldr (insertBy lt) []

/-- `iter_item_dirs`: yield `(display_name, item_type, folder_name)` for each
folder under the source root, in sorted order, skipping folders without a
`"."` type separator.  (Only directories are modelled; stray files at the
root are ignored by the source before this point.) -/
def iter_item_dirs (folders : List String) : List (String × String × String) :=
  (sortStr folders).filterMap (fun f =>
    match splitLastDot f with
    | some (d, t) => some (d, t, f)
    | none => none)

/-- `PurePosixPath(path).name`: the part after the last `/` (paths handed to
the comparator are file part paths without a trailing slash). -/
def basenameChars (l : List Char) : List Char :=
  match splitLast '/' l with
  | some (_, q) => q
  | none => l

/-- `PurePosixPath(path).suffix`: the extension of the basename, dot
included; empty when the basename has no dot, starts with its only dot, or
ends with a dot (pathlib returns a suffix only for `0 < i < len(name)-1`). -/
def pathSuffix (path : String) : String :=
  match splitLast '.' (basenameChars path.data) with
  | some (p, q) => if p.length ≠ 0 ∧ q.length ≠ 0 then String.mk ('.' :: q) else ""
  | none => ""

/-- `EXCLUDED_FILES`: metadata files never sent to or compared against the
remote API. -/
def EXCLUDED_FILES : List String := [".platform"]

/-- `ZIP_EXTENSIONS`: container-archive extensions compared content-aware. -/
def ZIP_EXTENSIONS : List String := [".dacpac", ".bacpac", ".nupkg"]

/-- `ZIP_VOLATILE_MEMBERS`: archive members holding volatile build metadata,
ignored by the signature. -/
def ZIP_VOLATILE_MEMBERS : List String := ["DacMetadata.xml", "Origin.xml"]

/-- `NO_DEPLOY_TYPES`: item types with no deployable definition. -/
def NO_DEPLOY_TYPES : List String :=
  ["SQLAnalyticsEndpoint", "SQLEndpoint", "Dashboard", "MountedWarehouse",
   "MountedDataFactory"]

/-- `METADATA_ONLY_TYPES`: item types created with name + type only. -/
def METADATA_ONLY_TYPES : List String :=
  ["Lakehouse", "Environment", "SQLDatabase", "Warehouse"]

/-- One member of a parsed ZIP archive: `(filename, CRC, file_size)` as read
from `zipfile.ZipFile.infolist()`. -/
structure ZipMember where
  name : String
  crc : Nat
  size : Nat

/-- Strict lexicographic order on `(filename, CRC, size)` triples, the order
`sorted()` uses on tuples. -/
def ltSig (a b : String × Nat × Nat) : Bool :=
  if ltStr a.1 b.1 then true
  else if ltStr b.1 a.1 then false
  else if a.2.1 < b.2.1 then true
  else if b.2.1 < a.2.1 then false
  else decide (a.2.2 < b.2.2)

/-- `_zip_contents_signature(data)`: the sorted `(filename, CRC, size)` list
over non-volatile members, or `[]` when the bytes do not parse as a ZIP
archive (the `except` branch).  The `zipfile` stdlib parser is the abstract
parameter `parse`. -/
def zip_contents_signature (parse : List Nat → Option (List ZipMember))
    (data : List Nat) : List (String × Nat × Nat) :=
  match parse data with
  | none => []
  | some ms =>
    sortBy ltSig
      ((ms.filter (fun m => decide (m.name ∉ ZIP_VOLATILE_MEMBERS))).map
        (fun m => (m.name, m.crc, m.size)))

/-- `_bytes_equal(a, b, path)`: ZIP-signature comparison for archive
extensions, byte equality otherwise. -/
def bytes_equal (parse : List Nat → Option (List ZipMember))
    (a b : List Nat) (path : String) : Bool :=
  if lowerStr (pathSuffix path) ∈ ZIP_EXTENSIONS then
    decide (zip_contents_signature parse a = zip_contents_signature parse b)
  else decide (a = b)

/-- One definition part.  `payload` holds the decoded bytes: the source
base64-decodes `InlineBase64` payloads (and utf-8-encodes the rest) before
comparing, and that decoding is a bijection elided here. -/
structure Part where
  path : String
  payload : List Nat
  payloadType : String
deriving DecidableEq

/-- A remote item definition as returned by `getDefinition`. -/
structure RemoteDef where
  parts : List Part

/-- The remote side path→bytes map of `definitions_match`, excluding
`.platform` (matched on the basename, as `PurePosixPath(path).name`). -/
def remote_by_path (parts : List Part) : List (String × List Nat) :=
  parts.foldl (fun m part =>
    if String.mk (basenameChars part.path.data) ∈ EXCLUDED_FILES then m
    else upsert part.path part.payload m) []

/-- The local side path→bytes map of `definitions_match` (no exclusion: the
local parts already come from `build_parts`, which drops `.platform`). -/
def local_by_path (parts : List Part) : List (String × List Nat) :=
  parts.foldl (fun m part => upsert part.path part.payload m) []

/-- `set(a.keys()) ⊆ set(b.keys())` on path→bytes maps. -/
def keysSubset (a b : List (String × List Nat)) : Bool :=
  a.all (fun p => (alookup p.1 b).isSome)

/-- `set(local.keys()) == set(remote.keys())`. -/
def sameKeys (a b : List (String × List Nat)) : Bool :=
  keysSubset a b && keysSubset b a

/-- `definitions_match(local_parts, remote_definition)`: `False` when the
remote definition is unavailable; otherwise compare the path sets and then
each shared path's bytes via `_bytes_equal`. -/
def definitions_match (parse : List Nat → Option (List ZipMember))
    (local_parts : List Part) (remote : Option RemoteDef) : Bool :=
  match remote with
  | none => false
  | some rd =>
    let rmap := remote_by_path rd.parts
    let lmap := local_by_path local_parts
    if sameKeys lmap rmap then
      lmap.all (fun p =>
        match alookup p.1 rmap with
        | some rdata => bytes_equal parse p.2 rdata p.1
        | none => false)
    else false

/-- JSON values, the parse results of the stdlib `json.loads` used for META
blocks and `.pbir` documents. -/
inductive Json where
  | null : Json
  | boolean (b : Bool) : Json
  | num (n : Int) : Json
  | str (s : String) : Json
  | arr (elems : List Json) : Json
  | obj (fields : List (String × Json)) : Json

/-- `dict.get(key, {})`-style access: the field of an object, `null` when the
key is absent or the value is not an object (the source only ever reaches
this on well-formed metadata dicts). -/
def Json.getD : Json → String → Json
  | .obj fields, k => (alookup k fields).getD .null
  | _, _ => .null

/-- Python truthiness of an optional string value: `if lh_name:` — present,
a string, and non-empty. -/
def Json.truthyStr : Json → Option String
  | .str s => if s = "" then none else some s
  | _ => none

/-- `key in dict` for a JSON object. -/
def Json.hasKey : Json → String → Bool
  | .obj fields, k => (alookup k fields).isSome
  | _, _ => false

/-- Add to a Python set modelled as a duplicate-free list. -/
def setAdd (x : String) (l : List String) : List String :=
  if x ∈ l then l else l ++ [x]

/-- One item folder of the local tree, carrying what the type-specific
dependency extractors read from its files: the parsed META JSON blocks of its
notebook `.py` files (the line-prefix scan of `_extract_meta_json` plus
`json.loads`), whether any `.tmdl` file contains the substring
`"Sql.Database"`, and the parsed documents of its `.pbir` files. -/
structure LocalItem where
  folder : String
  metaBlocks : List Json
  tmdlHasSqlDatabase : Bool
  pbirDocs : List Json

/-- `_parse_notebook_deps`: for each META block, follow
`dependencies.lakehouse.default_lakehouse_name` and probe the name index
with the key `f"{lh_name}.lakehouse"` — the probe key is NOT lower-cased
although the index keys are (source line 581); and if any `environment` key
is present, depend on every Environment-typed folder. -/
def parse_notebook_deps (item : LocalItem) (name_index : List (String × String))
    (type_index : List (String × List String)) : List String :=
  item.metaBlocks.foldl (fun deps meta =>
    let dependencies := meta.getD "dependencies"
    let deps1 :=
      match ((dependencies.getD "lakehouse").getD "default_lakehouse_name").truthyStr with
      | some lh_name =>
        match alookup (lh_name ++ ".lakehouse") name_index with
        | some folder => setAdd folder deps
        | none => deps
      | none => deps
    if dependencies.hasKey "environment" then
      ((alookup "environment" type_index).getD []).foldl (fun d f => setAdd f d) deps1
    else deps1) []

/-- `_parse_semantic_model_deps`: a `Sql.Database(` reference in any `.tmdl`
file makes the model depend on every Lakehouse-typed folder. -/
def parse_semantic_model_deps (item : LocalItem)
    (name_index : List (String × String))
    (type_index : List (String × List String)) : List String :=
  if item.tmdlHasSqlDatabase then
    ((alookup "lakehouse" type_index).getD []).foldl (fun d f => setAdd f d) []
  else []

/-- `_parse_report_deps`: follow `datasetReference.byPath.datasetName` of
each `.pbir` document and probe the name index with
`f"{ds_name}.semanticmodel"` (again not lower-cased). -/
def parse_report_deps (item : LocalItem) (name_index : List (String × String))
    (type_index : List (String × List String)) : List String :=
  item.pbirDocs.foldl (fun deps pbir =>
    match (((pbir.getD "datasetReference").getD "byPath").getD "datasetName").truthyStr with
    | some ds_name =>
      match alookup (ds_name ++ ".semanticmodel") name_index with
      | some folder => setAdd folder deps
      | none => deps
    | none => deps) []

/-- Find the item of the tree with the given folder name. -/
def treeFind (tree : List LocalItem) (folder : String) : Option LocalItem :=
  tree.find? (fun it => it.folder == folder)

/-- The local tree in the `sorted(source.iterdir())` order. -/
def sortTree (tree : List LocalItem) : List LocalItem :=
  sortBy (fun a b => ltStr a.folder b.folder) tree

/-- `build_dependency_graph(source)`: first pass builds the lowered
name index (`folder.lower() → folder`) and type index
(`type.lower() → [folder, …]`) over folders containing a `"."`; second pass
runs the type-specific extractor of each indexed folder (`_DEP_PARSERS`
dispatch on the lowered item type, any other type yielding no
dependencies). -/
def build_dependency_graph (tree : List LocalItem) : GraphT :=
  let sorted := sortTree tree
  let idx := sorted.foldl
    (fun (ix : List (String × String) × List (String × List String)) it =>
      match splitLastDot it.folder with
      | none => ix
      | some (_, item_type) =>
        (upsert (lowerStr it.folder) it.folder ix.1,
         upsertAppend (lowerStr item_type) it.folder ix.2)) ([], [])
  (idx.1.map (fun p => p.2)).map (fun folder =>
    match splitLastDot folder with
    | some (_, t) =>
      match treeFind sorted folder with
      | some it =>
        if lowerStr t = "notebook" then
          (folder, parse_notebook_deps it idx.1 idx.2)
        else if lowerStr t = "semanticmodel" then
          (folder, parse_semantic_model_deps it idx.1 idx.2)
        else if lowerStr t = "report" then
          (folder, parse_report_deps it idx.1 idx.2)
        else (folder, [])
      | none => (folder, [])
    | none => (folder, []))

/-- ASCII whitespace, as `str.strip()` removes it. -/
def isSpaceChar (c : Char) : Bool :=
  c = ' ' || c = '\t' || c = '\n' || c = '\r'

/-- `user_input.strip()`. -/
def stripStr (s : String) : String :=
  String.mk (((s.data.dropWhile isSpaceChar).reverse.dropWhile isSpaceChar).reverse)

/-- `find_item_folder(source, user_input)`: first sorted folder whose
lower-cased name equals the stripped, lower-cased input. -/
def find_item_folder (tree : List LocalItem) (user_input : String) : Option String :=
  ((sortTree tree).find?
    (fun it => lowerStr it.folder == lowerStr (stripStr user_input))).map
    (fun it => it.folder)

/-- The selective-mode step 0 of `main`: match the requested item, build the
graph, resolve the transitive closure and order it dependency-first.
`none` models the fatal precondition exit when the item is not found. -/
def selective_deploy_order (tree : List LocalItem) (deploy_item : String) :
    Option (List String) :=
  match find_item_folder tree deploy_item with
  | none => none
  | some matched =>
    let dep_graph := build_dependency_graph tree
    some (topo_sort (resolve_transitive dep_graph matched) dep_graph)

/-- One status response of the LRO status endpoint: `body.get("status", "")`
and `body.get("error", {}).get("message")`. -/
structure StatusBody where
  status : String
  errMessage : Option String

/-- Outcome of `poll_lro`: the result body on success, `RuntimeError` with
the server message on failed/cancelled, `TimeoutError` past the ceiling. -/
inductive LroResult where
  | success (result : Json) : LroResult
  | opFailed (message : String) : LroResult
  | timeout : LroResult

/-- `POLL_MAX`: the fixed polling attempt ceiling (72 × 5 s = 6 min). -/
def POLL_MAX : Nat := 72

/-- The polling loop of `poll_lro`, reading the status sequence `resp` at
attempts `attempt, attempt+1, …` with `rem` attempts left.  `fetch` is the
result GET: `some body` for a 200 response, `none` otherwise (success with
no result body, returned as `{}`). -/
def poll_lro_go (resp : Nat → StatusBody) (fetch : Option Json) :
    Nat → Nat → LroResult
  | _, 0 => .timeout
  | attempt, rem + 1 =>
    let status := lowerStr (resp attempt).status
    if status = "succeeded" then .success (fetch.getD (Json.obj []))
    else if status = "failed" ∨ status = "cancelled" then
      .opFailed ("Operation " ++ status ++ ": " ++
        ((resp attempt).errMessage.getD "unknown error"))
    else poll_lro_go resp fetch (attempt + 1) rem

/-- `poll_lro(session, operation_id)` over the abstract status sequence:
attempts run from 1 to `POLL_MAX`. -/
def poll_lro (resp : Nat → StatusBody) (fetch : Option Json) : LroResult :=
  poll_lro_go resp fetch 1 POLL_MAX

/-- A status that ends the polling loop. -/
def isTerminalStatus (b : StatusBody) : Prop :=
  lowerStr b.status = "succeeded" ∨ lowerStr b.status = "failed" ∨
    lowerStr b.status = "cancelled"

instance (b : StatusBody) : Decidable (isTerminalStatus b) :=
  inferInstanceAs (Decidable (lowerStr b.status = "succeeded" ∨
    lowerStr b.status = "failed" ∨ lowerStr b.status = "cancelled"))

/-- The outcome counters of the run (`results` dict of `main`; `deployed` is
the source's name for the updated count). -/
structure Tally where
  deployed : Nat
  created : Nat
  deleted : Nat
  skipped : Nat
  errors : Nat
deriving DecidableEq

def Tally.addDeployed (t : Tally) : Tally :=
  ⟨t.deployed + 1, t.created, t.deleted, t.skipped, t.errors⟩

def Tally.addCreated (t : Tally) : Tally :=
  ⟨t.deployed, t.created + 1, t.deleted, t.skipped, t.errors⟩

def Tally.addDeleted (t : Tally) : Tally :=
  ⟨t.deployed, t.created, t.deleted + 1, t.skipped, t.errors⟩

def Tally.addSkipped (t : Tally) : Tally :=
  ⟨t.deployed, t.created, t.deleted, t.skipped + 1, t.errors⟩

def Tally.addErrors (t : Tally) : Tally :=
  ⟨t.deployed, t.created, t.deleted, t.skipped, t.errors + 1⟩

/-- One unit of work: an item folder with its display name, type and the
parts encoded from its files by `build_parts`. -/
structure WorkItem where
  displayName : String
  itemType : String
  parts : List Part
deriving DecidableEq

/-- The remote calls the orchestrator can issue, recorded as a trace. -/
inductive RemoteCall where
  | createNoDef (name ty : String) : RemoteCall
  | createWithDef (name ty : String) (parts : List Part) : RemoteCall
  | getDefinition (id ty : String) : RemoteCall
  | updateDef (id : String) (parts : List Part) (ty : String) : RemoteCall
  | deleteCall (id : String) : RemoteCall
deriving DecidableEq

/-- Outcome of a create call (`create_item_*`): the new id, or a raised
exception with its message. -/
inductive CreateOutcome where
  | ok (id : String) : CreateOutcome
  | failure (msg : String) : CreateOutcome

/-- Outcome of `update_item_definition`: success, the distinct `UpdateFailed`
exception raised on a 400/404 response, or any other raised exception. -/
inductive UpdateOutcome where
  | ok : UpdateOutcome
  | updateFailed (msg : String) : UpdateOutcome
  | failure (msg : String) : UpdateOutcome

/-- Outcome of `delete_item` (a 404 "already gone" is folded into `ok` by the
source before it can raise). -/
inductive DeleteOutcome where
  | ok : DeleteOutcome
  | failure (msg : String) : DeleteOutcome

/-- The remote control plane as the orchestrator observes it: outcomes of
each call kind.  `getDef` models `get_remote_definition`, which never raises
(every non-200/202 path returns `None`). -/
structure RemoteEnv where
  createNoDef : String → String → CreateOutcome
  createWithDef : String → String → List Part → CreateOutcome
  getDef : String → String → Option RemoteDef
  update : String → List Part → String → UpdateOutcome
  deleteIt : String → DeleteOutcome

/-- The mutable state of the deploy loop: the identity-key→id inventory map
(`existing`), the keys seen in the repo (`repo_keys`), and the tally. -/
structure DeployState where
  existing : List ((String × String) × String)
  repoKeys : List (String × String)
  tally : Tally
deriving DecidableEq

/-- `(display_name.lower(), item_type.lower())`. -/
def lookupKey (it : WorkItem) : String × String :=
  (lowerStr it.displayName, lowerStr it.itemType)

/-- One remote inventory entry (`{id, displayName, type}`). -/
structure WsItem where
  id : String
  displayName : String
  wsType : String

/-- Identity key of a remote inventory item. -/
def wsKeyOf (ws : WsItem) : String × String :=
  (lowerStr ws.displayName, lowerStr ws.wsType)

/-- One iteration of the deploy loop of `main` (lines 815–879): skip
undeployable types; record the repo key; create-if-absent for metadata-only
types; skip empty part lists; else diff-and-update or create, catching
`UpdateFailed` and any other exception as a per-item error. -/
def process_item (env : RemoteEnv) (parse : List Nat → Option (List ZipMember))
    (st : DeployState) (it : WorkItem) : DeployState × List RemoteCall :=
  if it.itemType ∈ NO_DEPLOY_TYPES then
    (⟨st.existing, st.repoKeys, st.tally.addSkipped⟩, [])
  else
    let key := lookupKey it
    let repoKeys' := key :: st.repoKeys
    let existingId := alookup key st.existing
    if it.itemType ∈ METADATA_ONLY_TYPES then
      match existingId with
      | some _ => (⟨st.existing, repoKeys', st.tally.addSkipped⟩, [])
      | none =>
        match env.createNoDef it.displayName it.itemType with
        | .ok newId =>
          (⟨upsert key newId st.existing, repoKeys', st.tally.addCreated⟩,
            [.createNoDef it.displayName it.itemType])
        | .failure _ =>
          (⟨st.existing, repoKeys', st.tally.addErrors⟩,
            [.createNoDef it.displayName it.itemType])
    else
      if it.parts = [] then
        (⟨st.existing, repoKeys', st.tally.addSkipped⟩, [])
      else
        match existingId with
        | some itemId =>
          if definitions_match parse it.parts (env.getDef itemId it.itemType) then
            (⟨st.existing, repoKeys', st.tally.addSkipped⟩,
              [.getDefinition itemId it.itemType])
          else
            match env.update itemId it.parts it.itemType with
            | .ok =>
              (⟨st.existing, repoKeys', st.tally.addDeployed⟩,
                [.getDefinition itemId it.itemType,
                 .updateDef itemId it.parts it.itemType])
            | .updateFailed _ =>
              (⟨st.existing, repoKeys', st.tally.addErrors⟩,
                [.getDefinition itemId it.itemType,
                 .updateDef itemId it.parts it.itemType])
            | .failure _ =>
              (⟨st.existing, repoKeys', st.tally.addErrors⟩,
                [.getDefinition itemId it.itemType,
                 .updateDef itemId it.parts it.itemType])
        | none =>
          match env.createWithDef it.displayName it.itemType it.parts with
          | .ok newId =>
            (⟨upsert key newId st.existing, repoKeys', st.tally.addCreated⟩,
              [.createWithDef it.displayName it.itemType it.parts])
          | .failure _ =>
            (⟨st.existing, repoKeys', st.tally.addErrors⟩,
              [.createWithDef it.displayName it.itemType it.parts])

/-- The deploy loop over the ordered work set, threading the state and
concatenating the call trace. -/
def deploy_items (env : RemoteEnv) (parse : List Nat → Option (List ZipMember)) :
    List WorkItem → DeployState → DeployState × List RemoteCall
  | [], st => (st, [])
  | it :: rest, st =>
    let p := process_item env parse st it
    let q := deploy_items env parse rest p.1
    (q.1, p.2 ++ q.2)

/-- Step 4 of `main` (full mode): delete every re-listed workspace item whose
type is not in `NO_DEPLOY_TYPES` and whose identity key was not recorded in
the repo; a failed delete is tallied as an error and the loop continues. -/
def delete_phase (env : RemoteEnv) :
    List WsItem → DeployState → DeployState × List RemoteCall
  | [], st => (st, [])
  | ws :: rest, st =>
    if ws.wsType ∈ NO_DEPLOY_TYPES then delete_phase env rest st
    else if wsKeyOf ws ∈ st.repoKeys then delete_phase env rest st
    else
      match env.deleteIt ws.id with
      | .ok =>
        let p := delete_phase env rest ⟨st.existing, st.repoKeys, st.tally.addDeleted⟩
        (p.1, .deleteCall ws.id :: p.2)
      | .failure _ =>
        let p := delete_phase env rest ⟨st.existing, st.repoKeys, st.tally.addErrors⟩
        (p.1, .deleteCall ws.id :: p.2)

/-- A full-mode run: the deploy loop over the work set, then the
reconciliation delete over the re-listed inventory `wsFull`. -/
def full_deploy (env : RemoteEnv) (parse : List Nat → Option (List ZipMember))
    (work : List WorkItem) (st0 : DeployState) (wsFull : List WsItem) :
    DeployState × List RemoteCall :=
  let d := deploy_items env parse work st0
  let r := delete_phase env wsFull d.1
  (r.1, d.2 ++ r.2)

/-- `sys.exit(1)` iff the error tally is nonzero. -/
def exit_failure (st : DeployState) : Bool := decide (0 < st.tally.errors)

/-- The local tree of the end-to-end scenario: `A.Lakehouse`, and
`B.Notebook` whose META block references the lakehouse named `A`
(`default_lakehouse_name: "A"`). -/
def c4Tree : List LocalItem :=
  [⟨"A.Lakehouse", [], false, []⟩,
   ⟨"B.Notebook",
     [Json.obj [("dependencies",
       Json.obj [("lakehouse",
         Json.obj [("default_lakehouse_name", Json.str "A")])])]],
     false, []⟩]

/-- The same tree with the META reference written in lower case
(`default_lakehouse_name: "a"`), the only spelling the non-lowered probe key
can match against the lowered name index. -/
def c4TreeLower : List LocalItem :=
  [⟨"A.Lakehouse", [], false, []⟩,
   ⟨"B.Notebook",
     [Json.obj [("dependencies",
       Json.obj [("lakehouse",
         Json.obj [("default_lakehouse_name", Json.str "a")])])]],
     false, []⟩]

/-- A remote environment whose `updateDefinition` always raises the
`UpdateFailed` error kind (400 — unsupported for this item type) and whose
`getDefinition` returns no definition. -/
def c1Env : RemoteEnv :=
  ⟨fun _ _ => .ok "newid",
   fun _ _ _ => .ok "newid",
   fun _ _ => none,
   fun _ _ _ => .updateFailed "updateDefinition failed (400): unsupported for this item type",
   fun _ => .ok⟩

/-- A single-item work set whose update will be rejected as unsupported. -/
def c1Work : List WorkItem :=
  [⟨"X", "Notebook", [⟨"x.py", [1], "InlineBase64"⟩]⟩]

/-- Initial state: the item already exists remotely under id `id9`. -/
def c1St0 : DeployState := ⟨[(("x", "notebook"), "id9")], [], ⟨0, 0, 0, 0, 0⟩⟩

/-- A remote environment where every call succeeds. -/
def c2Env : RemoteEnv :=
  ⟨fun _ _ => .ok "newid",
   fun _ _ _ => .ok "newid",
   fun _ _ => none,
   fun _ _ _ => .ok,
   fun _ => .ok⟩

/-- A remote Lakehouse (a MetadataOnly type) whose identity key is absent
from the local tree. -/
def c2Ws : WsItem := ⟨"lkh1", "Sales", "Lakehouse"⟩

/-- A status sequence that runs `running → running → Succeeded`. -/
def c9Resp : Nat → StatusBody :=
  fun i => if i = 3 then ⟨"Succeeded", none⟩ else ⟨"running", none⟩

-- ======================= Theorems =======================

theorem mem_insertSorted {x a : String} {l : List String} :
    x ∈ insertSorted a l ↔ x = a ∨ x ∈ l := by
  induction l with
  | nil => simp [insertSorted]
  | cons b bs ih =>
    cases hl : ltStr b a with
    | true =>
      simp only [insertSorted, hl, if_true, List.mem_cons, ih]
      tauto
    | false =>
      simp only [insertSorted, hl, Bool.false_eq_true, if_false, List.mem_cons]

theorem mem_sortStr {x : String} {l : List String} : x ∈ sortStr l ↔ x ∈ l := by
  induction l with
  | nil => simp [sortStr]
  | cons b bs ih =>
    simp only [sortStr, List.foldr] at ih ⊢
    rw [mem_insertSorted, ih, List.mem_cons]

theorem graphGet_length_le_maxDeg (g : GraphT) (k : String) :
    (graphGet g k).length ≤ maxDeg g := by
  induction g with
  | nil => simp [graphGet, alookup, maxDeg]
  | cons p rest ih =>
    obtain ⟨k', v⟩ := p
    by_cases h : k' = k
    · simp only [graphGet, alookup, h, if_true, Option.getD_some, maxDeg, List.foldr]
      exact Nat.le_max_left _ _
    · simp only [graphGet, alookup, h, if_false, maxDeg, List.foldr] at ih ⊢
      exact le_trans ih (Nat.le_max_right _ _)

theorem graphGet_subset_univ (g : GraphT) (start : String) {c d : String}
    (h : d ∈ graphGet g c) : d ∈ graphUniv g start := by
  simp only [graphUniv, List.mem_cons, List.mem_flatten, List.mem_map]
  right
  induction g with
  | nil => simp [graphGet, alookup] at h
  | cons p rest ih =>
    obtain ⟨k', v⟩ := p
    by_cases hk : k' = c
    · simp only [graphGet, alookup, hk, if_true, Option.getD_some] at h
      exact ⟨v, ⟨(c, v), by simp [hk], rfl⟩, h⟩
    · simp only [graphGet, alookup, hk, if_false] at h ih
      obtain ⟨l, ⟨q, hq, hql⟩, hdl⟩ := ih h
      exact ⟨l, ⟨q, List.mem_cons_of_mem _ hq, hql⟩, hdl⟩

theorem length_filter_notMem_cons_lt {l r : List String} {c : String}
    (hcl : c ∈ l) (hcr : c ∉ r) :
    (l.filter (fun x => decide (x ∉ c :: r))).length <
      (l.filter (fun x => decide (x ∉ r))).length := by
  induction l with
  | nil => simp at hcl
  | cons a l' ih =>
    by_cases hac : a = c
    · subst hac
      have h1 : (decide (a ∉ a :: r)) = false := by simp
      have h2 : (decide (a ∉ r)) = true := by simpa using hcr
      simp only [List.filter, h1, h2, List.length_cons]
      have hmono : (l'.filter (fun x => decide (x ∉ a :: r))).length ≤
          (l'.filter (fun x => decide (x ∉ r))).length := by
        apply List.Sublist.length_le
        apply List.monotone_filter_right
        intro x hx
        simp only [decide_eq_true_eq] at hx ⊢
        exact fun hxr => hx (List.mem_cons_of_mem _ hxr)
      omega
    · have hcl' : c ∈ l' := by
        rcases List.mem_cons.mp hcl with h | h
        · exact absurd h.symm hac
        · exact h
      have hsame : (decide (a ∉ c :: r)) = (decide (a ∉ r)) := by
        by_cases har : a ∈ r
        · simp [har]
        · simp [har, hac]
      by_cases har : a ∈ r
      · have : (decide (a ∉ r)) = false := by simp [har]
        simp only [List.filter, hsame, this]
        exact ih hcl'
      · have : (decide (a ∉ r)) = true := by simp [har]
        simp only [List.filter, hsame, this]
        simpa using ih hcl'

/-- Core invariant of the worklist loop: with the stack inside the universe
and fuel above the potential `(D+1)·|univ \ result| + |stack|`, every node
currently in the result or on the stack ends up in the returned set. -/
theorem resolveLoop_mem_final (g : GraphT) (univ : List String) (D : Nat)
    (hD : ∀ k, (graphGet g k).length ≤ D)
    (hGU : ∀ c d, d ∈ graphGet g c → d ∈ univ) :
    ∀ (fuel : Nat) (result stack : List String),
      (∀ x ∈ stack, x ∈ univ) →
      (D + 1) * (univ.dedup.filter (fun x => decide (x ∉ result))).length
          + stack.length < fuel →
      ∀ y, (y ∈ result ∨ y ∈ stack) → y ∈ resolveLoop g fuel result stack := by
  intro fuel
  induction fuel with
  | zero => intro result stack _ hΦ; omega
  | succ fuel ih =>
    intro result stack hstk hΦ y hy
    match stack with
    | [] =>
      simp only [resolveLoop]
      rcases hy with h | h
      · exact h
      · simp at h
    | current :: rest =>
      by_cases hc : current ∈ result
      · simp only [resolveLoop, hc, if_true]
        apply ih result rest (fun x hx => hstk x (List.mem_cons_of_mem _ hx))
        · simp only [List.length_cons] at hΦ
          omega
        · rcases hy with h | h
          · exact Or.inl h
          · rcases List.mem_cons.mp h with h' | h'
            · exact Or.inl (h' ▸ hc)
            · exact Or.inr h'
      · simp only [resolveLoop, hc, if_false]
        have hcu : current ∈ univ.dedup :=
          List.mem_dedup.mpr (hstk current (List.mem_cons_self _ _))
        have hcount :
            (univ.dedup.filter (fun x => decide (x ∉ current :: result))).length <
              (univ.dedup.filter (fun x => decide (x ∉ result))).length :=
          length_filter_notMem_cons_lt hcu hc
        have hfil :
            ((graphGet g current).filter
              (fun d => decide (d ∉ current :: result))).length ≤ D :=
          le_trans (List.length_filter_le _ _) (hD current)
        apply ih
        · intro x hx
          rcases List.mem_append.mp hx with h' | h'
          · exact hGU current x (List.mem_of_mem_filter h')
          · exact hstk x (List.mem_cons_of_mem _ h')
        · rw [List.length_append]
          have hmul : (D + 1) *
              ((univ.dedup.filter (fun x => decide (x ∉ current :: result))).length + 1)
              ≤ (D + 1) *
              (univ.dedup.filter (fun x => decide (x ∉ result))).length :=
            Nat.mul_le_mul_left _ hcount
          simp only [List.length_cons] at hΦ
          nlinarith [hmul, hfil, hΦ]
        · rcases hy with h | h
          · exact Or.inl (List.mem_cons_of_mem _ h)
          · rcases List.mem_cons.mp h with h' | h'
            · exact Or.inl (h' ▸ List.mem_cons_self _ _)
            · exact Or.inr (List.mem_append_right _ h')

theorem resolveLoop_step_new (g : GraphT) (fuel : Nat) (result : List String)
    (current : String) (stack : List String) (h : current ∉ result) :
    resolveLoop g (fuel + 1) result (current :: stack) =
      resolveLoop g fuel (current :: result)
        (((graphGet g current).filter (fun d => decide (d ∉ current :: result))) ++ stack) := by
  simp only [resolveLoop, h, if_false]

theorem filter_notMem_nil (l : List String) :
    l.filter (fun x => decide (x ∉ ([] : List String))) = l :=
  List.filter_eq_self.mpr (fun a _ => by simp)

/-- C6: For every finite dependency graph (cycles included) and every start
node, `resolve_transitive` terminates — its fuel strictly dominates the
loop's potential, so the worklist always drains — and the returned set
contains the start node and every direct dependency of the start node. -/
theorem claim_C6 (g : GraphT) (start : String) :
    start ∈ resolve_transitive g start ∧
      ∀ d ∈ graphGet g start, d ∈ resolve_transitive g start := by
  have hD := graphGet_length_le_maxDeg g
  have hGU : ∀ c d, d ∈ graphGet g c → d ∈ graphUniv g start :=
    fun c d h => graphGet_subset_univ g start h
  have hstart_univ : start ∈ graphUniv g start := by simp [graphUniv]
  have hstep : resolve_transitive g start =
      resolveLoop g ((maxDeg g + 1) * (graphUniv g start).dedup.length + 1) [start]
        (((graphGet g start).filter (fun d => decide (d ∉ ([start] : List String)))) ++ []) := by
    have h2 : resolveFuel g start =
        ((maxDeg g + 1) * (graphUniv g start).dedup.length + 1) + 1 := rfl
    rw [resolve_transitive, h2, resolveLoop_step_new g _ _ _ _ (by simp)]
  have hcount :
      ((graphUniv g start).dedup.filter
        (fun x => decide (x ∉ ([start] : List String)))).length <
      (graphUniv g start).dedup.length := by
    have := length_filter_notMem_cons_lt (l := (graphUniv g start).dedup)
      (r := ([] : List String)) (c := start)
      (List.mem_dedup.mpr hstart_univ) (by simp)
    rwa [filter_notMem_nil] at this
  have hfil : ((graphGet g start).filter
      (fun d => decide (d ∉ ([start] : List String)))).length ≤ maxDeg g :=
    le_trans (List.length_filter_le _ _) (hD start)
  have hmain : ∀ y, (y ∈ ([start] : List String) ∨
      y ∈ ((graphGet g start).filter
        (fun d => decide (d ∉ ([start] : List String)))) ++ []) →
      y ∈ resolve_transitive g start := by
    intro y hy
    rw [hstep]
    apply resolveLoop_mem_final g (graphUniv g start) (maxDeg g) hD hGU
    · intro x hx
      rcases List.mem_append.mp hx with h' | h'
      · exact hGU start x (List.mem_of_mem_filter h')
      · simp at h'
    · rw [List.length_append, List.length_nil]
      have hexp : (maxDeg g + 1) *
          (((graphUniv g start).dedup.filter
            (fun x => decide (x ∉ ([start] : List String)))).length + 1) =
          (maxDeg g + 1) *
          ((graphUniv g start).dedup.filter
            (fun x => decide (x ∉ ([start] : List String)))).length + (maxDeg g + 1) := by
        ring
      have hmul : (maxDeg g + 1) *
          (((graphUniv g start).dedup.filter
            (fun x => decide (x ∉ ([start] : List String)))).length + 1) ≤
          (maxDeg g + 1) * (graphUniv g start).dedup.length :=
        Nat.mul_le_mul_left _ hcount
      omega
    · exact hy
  refine ⟨hmain start (Or.inl (by simp)), fun d hd => hmain d ?_⟩
  by_cases hds : d = start
  · exact Or.inl (by simp [hds])
  · refine Or.inr (List.mem_append_left _ (List.mem_filter.mpr ⟨hd, ?_⟩))
    simp [hds]

/-- Witness for C6 at a one-edge graph: the closure of `B.Notebook` contains
the start node and its direct dependency. -/
theorem claim_C6_witness :
    "B.Notebook" ∈ resolve_transitive [("B.Notebook", ["A.Lakehouse"])] "B.Notebook" ∧
    "A.Lakehouse" ∈ graphGet [("B.Notebook", ["A.Lakehouse"])] "B.Notebook" ∧
    "A.Lakehouse" ∈ resolve_transitive [("B.Notebook", ["A.Lakehouse"])] "B.Notebook" := by
  have h := claim_C6 [("B.Notebook", ["A.Lakehouse"])] "B.Notebook"
  exact ⟨h.1, by decide, h.2 "A.Lakehouse" (by decide)⟩

theorem depsClosed_nil (g : GraphT) (items : List String) :
    DepsClosed g items [] := by
  intro l₁ i l₂ heq
  exact absurd heq (by simp)

theorem depsClosed_snoc {g : GraphT} {items res : List String} {item : String}
    (h1 : DepsClosed g items res)
    (h2 : ∀ d, d ∈ graphGet g item → d ∈ items → d ∈ res) :
    DepsClosed g items (res ++ [item]) := by
  intro l₁ i l₂ heq d hd hdi
  rcases List.eq_nil_or_concat l₂ with rfl | ⟨l₂', y, rfl⟩
  · obtain ⟨hres, hit⟩ := List.append_inj' heq (by simp)
    have hii : item = i := by simpa using hit
    subst hres
    exact h2 d (hii ▸ hd) hdi
  · have heq2 : res ++ [item] = (l₁ ++ i :: l₂') ++ [y] := by
      rw [heq]; simp
    obtain ⟨hres, _⟩ := List.append_inj' heq2 (by simp)
    exact h1 l₁ i l₂' hres d hd hdi

theorem unvisitedCount_mono {items visited : List String} {item : String} :
    unvisitedCount items (item :: visited) ≤ unvisitedCount items visited := by
  apply List.Sublist.length_le
  apply List.monotone_filter_right
  intro x hx
  simp only [decide_eq_true_eq] at hx ⊢
  exact fun hxr => hx (List.mem_cons_of_mem _ hxr)

theorem unvisitedCount_strict {items visited : List String} {item : String}
    (hi : item ∈ items) (hv : item ∉ visited) :
    unvisitedCount items (item :: visited) < unvisitedCount items visited :=
  length_filter_notMem_cons_lt (List.mem_dedup.mpr hi) hv

/-- Master invariant of `topoVisit`.  `anc` is the (ghost) chain of callers,
each of which reaches `item` through restricted edges; the visited set splits
into emitted items and ancestors; the emitted list is dependency-closed; and
the fuel dominates the unvisited count. -/
theorem topoVisit_invariant (g : GraphT) (items : List String)
    (hacyc : ∀ x, ¬ Relation.TransGen (EdgeIn items g) x x) :
    ∀ (fuel : Nat) (item : String) (visited result anc : List String),
      item ∈ items →
      (∀ a ∈ anc, Relation.TransGen (EdgeIn items g) a item) →
      (∀ v ∈ visited, v ∈ result ∨ v ∈ anc) →
      DepsClosed g items result →
      unvisitedCount items visited < fuel →
      (∀ v ∈ visited, v ∈ (topoVisit g items fuel item visited result).1) ∧
      (∃ new, (topoVisit g items fuel item visited result).2 = result ++ new) ∧
      (∀ v ∈ (topoVisit g items fuel item visited result).1,
        v ∈ (topoVisit g items fuel item visited result).2 ∨ v ∈ anc) ∧
      DepsClosed g items (topoVisit g items fuel item visited result).2 ∧
      item ∈ (topoVisit g items fuel item visited result).1 ∧
      unvisitedCount items (topoVisit g items fuel item visited result).1 ≤
        unvisitedCount items visited := by
  intro fuel
  induction fuel with
  | zero =>
    intro item visited result anc _ _ _ _ hmeas
    omega
  | succ fuel ih =>
    intro item visited result anc hitem hanc hvis hgood hmeas
    by_cases hmem : item ∈ visited
    · simp only [topoVisit, hmem, if_true]
      exact ⟨fun v hv => hv, ⟨[], by simp⟩, hvis, hgood, by trivial, le_refl _⟩
    · simp only [topoVisit, hmem, if_false]
      -- The fold over the sorted in-set dependencies of `item`.
      have hfold : ∀ (ds : List String), (∀ d ∈ ds, d ∈ graphGet g item) →
          ∀ (vis res : List String),
          (∀ v ∈ vis, v ∈ res ∨ v ∈ item :: anc) →
          DepsClosed g items res →
          unvisitedCount items vis < fuel →
          (∀ v ∈ vis, v ∈ (ds.foldl
            (fun s d => if d ∈ items then topoVisit g items fuel d s.1 s.2 else s)
            (vis, res)).1) ∧
          (∃ new, (ds.foldl
            (fun s d => if d ∈ items then topoVisit g items fuel d s.1 s.2 else s)
            (vis, res)).2 = res ++ new) ∧
          (∀ v ∈ (ds.foldl
            (fun s d => if d ∈ items then topoVisit g items fuel d s.1 s.2 else s)
            (vis, res)).1,
            v ∈ (ds.foldl
              (fun s d => if d ∈ items then topoVisit g items fuel d s.1 s.2 else s)
              (vis, res)).2 ∨ v ∈ item :: anc) ∧
          DepsClosed g items (ds.foldl
            (fun s d => if d ∈ items then topoVisit g items fuel d s.1 s.2 else s)
            (vis, res)).2 ∧
          unvisitedCount items (ds.foldl
            (fun s d => if d ∈ items then topoVisit g items fuel d s.1 s.2 else s)
            (vis, res)).1 ≤ unvisitedCount items vis ∧
          (∀ d ∈ ds, d ∈ items → d ∈ (ds.foldl
            (fun s d => if d ∈ items then topoVisit g items fuel d s.1 s.2 else s)
            (vis, res)).1) := by
        intro ds
        induction ds with
        | nil =>
          intro _ vis res hv hg hm
          exact ⟨fun v hv' => hv', ⟨[], by simp⟩, hv, hg, le_refl _, by simp⟩
        | cons d ds' ihd =>
          intro hds vis res hv hg hm
          by_cases hdit : d ∈ items
          · simp only [List.foldl_cons, hdit, if_true]
            have hedge : EdgeIn items g item d :=
              ⟨hds d (List.mem_cons_self _ _), hitem, hdit⟩
            have hanc' : ∀ a ∈ item :: anc,
                Relation.TransGen (EdgeIn items g) a d := by
              intro a ha
              rcases List.mem_cons.mp ha with rfl | ha'
              · exact Relation.TransGen.single hedge
              · exact Relation.TransGen.tail (hanc a ha') hedge
            obtain ⟨m1, m2, m3, m4, m5, m6⟩ :=
              ih d vis res (item :: anc) hdit hanc' hv hg hm
            obtain ⟨f1, f2, f3, f4, f5, f6⟩ :=
              ihd (fun d' hd' => hds d' (List.mem_cons_of_mem _ hd'))
                (topoVisit g items fuel d vis res).1
                (topoVisit g items fuel d vis res).2
                m3 m4 (lt_of_le_of_lt m6 hm)
            refine ⟨fun v hv' => f1 v (m1 v hv'), ?_, f3, f4, le_trans f5 m6, ?_⟩
            · obtain ⟨n1, hn1⟩ := m2
              obtain ⟨n2, hn2⟩ := f2
              exact ⟨n1 ++ n2, by rw [hn2, hn1, List.append_assoc]⟩
            · intro d' hd' hd'i
              rcases List.mem_cons.mp hd' with rfl | hd''
              · exact f1 d' m5
              · exact f6 d' hd'' hd'i
          · simp only [List.foldl_cons, hdit, if_false]
            obtain ⟨f1, f2, f3, f4, f5, f6⟩ :=
              ihd (fun d' hd' => hds d' (List.mem_cons_of_mem _ hd')) vis res hv hg hm
            refine ⟨f1, f2, f3, f4, f5, ?_⟩
            intro d' hd' hd'i
            rcases List.mem_cons.mp hd' with rfl | hd''
            · exact absurd hd'i hdit
            · exact f6 d' hd'' hd'i
      have hvis' : ∀ v ∈ item :: visited, v ∈ result ∨ v ∈ item :: anc := by
        intro v hv
        rcases List.mem_cons.mp hv with rfl | hv'
        · exact Or.inr (List.mem_cons_self _ _)
        · rcases hvis v hv' with h | h
          · exact Or.inl h
          · exact Or.inr (List.mem_cons_of_mem _ h)
      have hm' : unvisitedCount items (item :: visited) < fuel := by
        have := unvisitedCount_strict hitem hmem
        omega
      obtain ⟨f1, f2, f3, f4, f5, f6⟩ :=
        hfold (sortStr (graphGet g item))
          (fun d hd => mem_sortStr.mp hd)
          (item :: visited) result hvis' hgood hm'
      -- All in-set dependencies of `item` were emitted before it is appended:
      -- a dependency still grey would be an ancestor, closing a cycle.
      have hdeps : ∀ d, d ∈ graphGet g item → d ∈ items →
          d ∈ ((sortStr (graphGet g item)).foldl
            (fun s d => if d ∈ items then topoVisit g items fuel d s.1 s.2 else s)
            (item :: visited, result)).2 := by
        intro d hd hdit
        have hdvis := f6 d (mem_sortStr.mpr hd) hdit
        rcases f3 d hdvis with h | h
        · exact h
        · exfalso
          have hedge : EdgeIn items g item d := ⟨hd, hitem, hdit⟩
          rcases List.mem_cons.mp h with rfl | h'
          · exact hacyc d (Relation.TransGen.single hedge)
          · exact hacyc item
              (Relation.TransGen.head hedge (hanc d h'))
      refine ⟨?_, ?_, ?_, ?_, ?_, ?_⟩
      · intro v hv
        exact f1 v (List.mem_cons_of_mem _ hv)
      · obtain ⟨new, hnew⟩ := f2
        exact ⟨new ++ [item], by simp [hnew]⟩
      · intro v hv
        rcases f3 v hv with h | h
        · exact Or.inl (List.mem_append_left _ h)
        · rcases List.mem_cons.mp h with rfl | h'
          · exact Or.inl (List.mem_append_right _ (List.mem_singleton.mpr rfl))
          · exact Or.inr h'
      · exact depsClosed_snoc f4 hdeps
      · exact f1 item (List.mem_cons_self _ _)
      · exact le_trans f5 unvisitedCount_mono

/-- The top-level loop of `topo_sort` preserves dependency-closure: with no
ancestors, grey nodes cannot outlive a call, so the visited set always equals
the emitted set. -/
theorem topoFold_depsClosed (g : GraphT) (items : List String)
    (hacyc : ∀ x, ¬ Relation.TransGen (EdgeIn items g) x x) :
    ∀ (l : List String), (∀ x ∈ l, x ∈ items) →
    ∀ (vis res : List String), (∀ v ∈ vis, v ∈ res) → DepsClosed g items res →
    DepsClosed g items ((l.foldl
      (fun s it => topoVisit g items (items.dedup.length + 1) it s.1 s.2)
      (vis, res)).2) := by
  intro l
  induction l with
  | nil => intro _ vis res _ hg; exact hg
  | cons it l' ihl =>
    intro hl vis res hv hg
    have hmeas : unvisitedCount items vis < items.dedup.length + 1 := by
      have := List.length_filter_le (fun x => decide (x ∉ vis)) items.dedup
      simp only [unvisitedCount]
      omega
    obtain ⟨_, _, m3, m4, _, _⟩ :=
      topoVisit_invariant g items hacyc (items.dedup.length + 1) it vis res []
        (hl it (List.mem_cons_self _ _)) (by simp)
        (fun v hv' => Or.inl (hv v hv')) hg hmeas
    simp only [List.foldl_cons]
    apply ihl (fun x hx => hl x (List.mem_cons_of_mem _ hx))
    · intro v hv'
      rcases m3 v hv' with h | h
      · exact h
      · simp at h
    · exact m4

/-- C5: under acyclicity of the graph restricted to the target set,
`topo_sort` never places an item before one of its dependencies that is also
in the target set (every emitted occurrence is preceded by all of its in-set
dependencies), and the output is deterministic: equal inputs give the
identical list. -/
theorem claim_C5 (items : List String) (g : GraphT)
    (hacyc : ∀ x, ¬ Relation.TransGen (EdgeIn items g) x x) :
    (∀ l₁ i l₂, topo_sort items g = l₁ ++ i :: l₂ →
      ∀ d, d ∈ graphGet g i → d ∈ items → d ∈ l₁) ∧
    ∀ items2 g2, items2 = items → g2 = g → topo_sort items2 g2 = topo_sort items g := by
  constructor
  · have := topoFold_depsClosed g items hacyc (sortStr items.dedup)
      (fun x hx => (List.mem_dedup.mp (mem_sortStr.mp hx)))
      [] [] (by simp) (depsClosed_nil g items)
    exact fun l₁ i l₂ heq => this l₁ i l₂ heq
  · intro items2 g2 h1 h2
    rw [h1, h2]

/-- Witness for C5 at the two-item graph where `B.Notebook` depends on
`A.Lakehouse`: the restricted graph is acyclic and the ordering property
holds. -/
theorem claim_C5_witness :
    (∀ x, ¬ Relation.TransGen
      (EdgeIn ["A.Lakehouse", "B.Notebook"] [("B.Notebook", ["A.Lakehouse"])]) x x) ∧
    (∀ l₁ i l₂,
      topo_sort ["A.Lakehouse", "B.Notebook"] [("B.Notebook", ["A.Lakehouse"])] =
        l₁ ++ i :: l₂ →
      ∀ d, d ∈ graphGet [("B.Notebook", ["A.Lakehouse"])] i →
        d ∈ ["A.Lakehouse", "B.Notebook"] → d ∈ l₁) := by
  have hedge : ∀ a b,
      EdgeIn ["A.Lakehouse", "B.Notebook"] [("B.Notebook", ["A.Lakehouse"])] a b →
      a = "B.Notebook" ∧ b = "A.Lakehouse" := by
    rintro a b ⟨hb, _, _⟩
    by_cases ha : ("B.Notebook" : String) = a
    · refine ⟨ha.symm, ?_⟩
      simp only [graphGet, alookup, ha, if_true, Option.getD_some] at hb
      simpa using hb
    · simp [graphGet, alookup, ha] at hb
  have hpath : ∀ a b, Relation.TransGen
      (EdgeIn ["A.Lakehouse", "B.Notebook"] [("B.Notebook", ["A.Lakehouse"])]) a b →
      a = "B.Notebook" ∧ b = "A.Lakehouse" := by
    intro a b h
    induction h with
    | single h' => exact hedge _ _ h'
    | tail _ hbc ihp =>
      obtain ⟨ha, hmid⟩ := ihp
      obtain ⟨hmid', _⟩ := hedge _ _ hbc
      exact absurd (hmid ▸ hmid' : ("A.Lakehouse" : String) = "B.Notebook") (by decide)
  have hacyc : ∀ x, ¬ Relation.TransGen
      (EdgeIn ["A.Lakehouse", "B.Notebook"] [("B.Notebook", ["A.Lakehouse"])]) x x := by
    intro x hx
    obtain ⟨h1, h2⟩ := hpath x x hx
    exact absurd (h1.symm.trans h2) (by decide)
  exact ⟨hacyc, (claim_C5 _ _ hacyc).1⟩

theorem poll_go_skip (resp : Nat → StatusBody) (fetch : Option Json)
    (attempt rem : Nat) (h : ¬ isTerminalStatus (resp attempt)) :
    poll_lro_go resp fetch attempt (rem + 1) =
      poll_lro_go resp fetch (attempt + 1) rem := by
  have h1 : ¬ lowerStr (resp attempt).status = "succeeded" :=
    fun hc => h (Or.inl hc)
  have h2 : ¬ (lowerStr (resp attempt).status = "failed" ∨
      lowerStr (resp attempt).status = "cancelled") :=
    fun hc => h (Or.inr hc)
  simp only [poll_lro_go, h1, h2, if_false, ite_false]

theorem poll_go_advance (resp : Nat → StatusBody) (fetch : Option Json) :
    ∀ (n attempt rem : Nat),
      (∀ i, attempt ≤ i → i < attempt + n → ¬ isTerminalStatus (resp i)) →
      poll_lro_go resp fetch attempt (n + rem) =
        poll_lro_go resp fetch (attempt + n) rem := by
  intro n
  induction n with
  | zero => intro attempt rem _; simp
  | succ n ihn =>
    intro attempt rem h
    have hstep := poll_go_skip resp fetch attempt (n + rem)
      (h attempt (le_refl _) (by omega))
    calc poll_lro_go resp fetch attempt (n + 1 + rem)
        = poll_lro_go resp fetch attempt ((n + rem) + 1) := by
          rw [show n + 1 + rem = (n + rem) + 1 from by omega]
      _ = poll_lro_go resp fetch (attempt + 1) (n + rem) := hstep
      _ = poll_lro_go resp fetch (attempt + 1 + n) rem :=
          ihn (attempt + 1) rem (fun i h1 h2 => h i (by omega) (by omega))
      _ = poll_lro_go resp fetch (attempt + (n + 1)) rem := by
          rw [show attempt + 1 + n = attempt + (n + 1) from by omega]

/-- C9: for every sequence of status responses, the poller returns the
fetched result body (possibly empty) on a terminal `succeeded`; raises the
error carrying the server-reported message on a terminal `failed` or
`cancelled`; and raises the distinct timeout fault after the 72-attempt
ceiling passes without a terminal status. -/
theorem claim_C9 (resp : Nat → StatusBody) (fetch : Option Json) :
    ((∀ i, 1 ≤ i → i ≤ POLL_MAX → ¬ isTerminalStatus (resp i)) →
      poll_lro resp fetch = .timeout) ∧
    (∀ k, 1 ≤ k → k ≤ POLL_MAX →
      (∀ i, 1 ≤ i → i < k → ¬ isTerminalStatus (resp i)) →
      lowerStr (resp k).status = "succeeded" →
      poll_lro resp fetch = .success (fetch.getD (Json.obj []))) ∧
    (∀ k, 1 ≤ k → k ≤ POLL_MAX →
      (∀ i, 1 ≤ i → i < k → ¬ isTerminalStatus (resp i)) →
      (lowerStr (resp k).status = "failed" ∨
        lowerStr (resp k).status = "cancelled") →
      poll_lro resp fetch = .opFailed ("Operation " ++ lowerStr (resp k).status
        ++ ": " ++ ((resp k).errMessage.getD "unknown error"))) := by
  refine ⟨?_, ?_, ?_⟩
  · intro h
    have := poll_go_advance resp fetch 72 1 0
      (fun i h1 h2 => h i h1 (by simpa [POLL_MAX] using by omega))
    simpa [poll_lro, POLL_MAX, poll_lro_go] using this
  · intro k hk1 hk2 hterm hsuc
    have hk2' : k ≤ 72 := by simpa [POLL_MAX] using hk2
    have hP : (POLL_MAX : Nat) = (k - 1) + (73 - k) := by
      simp only [POLL_MAX]; omega
    have hadv := poll_go_advance resp fetch (k - 1) 1 (73 - k)
      (fun i h1 h2 => hterm i h1 (by omega))
    rw [poll_lro, hP, hadv, show 1 + (k - 1) = k from by omega,
      show 73 - k = (72 - k) + 1 from by omega]
    simp [poll_lro_go, hsuc]
  · intro k hk1 hk2 hterm hfc
    have hk2' : k ≤ 72 := by simpa [POLL_MAX] using hk2
    have hne : ¬ lowerStr (resp k).status = "succeeded" := by
      intro h'
      rcases hfc with h'' | h'' <;> rw [h''] at h' <;> exact absurd h' (by decide)
    have hP : (POLL_MAX : Nat) = (k - 1) + (73 - k) := by
      simp only [POLL_MAX]; omega
    have hadv := poll_go_advance resp fetch (k - 1) 1 (73 - k)
      (fun i h1 h2 => hterm i h1 (by omega))
    rw [poll_lro, hP, hadv, show 1 + (k - 1) = k from by omega,
      show 73 - k = (72 - k) + 1 from by omega]
    simp [poll_lro_go, hne, hfc]

/-- Witness for C9 at a `running → running → Succeeded` status sequence:
the poller returns the (empty) result body. -/
theorem claim_C9_witness :
    (1 ≤ 3 ∧ 3 ≤ POLL_MAX ∧
      (∀ i, 1 ≤ i → i < 3 → ¬ isTerminalStatus (c9Resp i)) ∧
      lowerStr (c9Resp 3).status = "succeeded") ∧
    poll_lro c9Resp none = .success (Json.obj []) := by
  have hterm : ∀ i, 1 ≤ i → i < 3 → ¬ isTerminalStatus (c9Resp i) := by
    intro i h1 h2
    interval_cases i
    · exact (by decide : ¬ isTerminalStatus (c9Resp 1))
    · exact (by decide : ¬ isTerminalStatus (c9Resp 2))
  have hsuc : lowerStr (c9Resp 3).status = "succeeded" := by decide
  exact ⟨⟨by norm_num, by decide, hterm, hsuc⟩,
    (claim_C9 c9Resp none).2.1 3 (by norm_num) (by decide) hterm hsuc⟩

/-- C3, evaluated at the failing input: `x.dacpac` carries a container
extension, both payloads fail to parse as ZIP archives, and the payloads
differ byte for byte — yet the comparator reports them EQUAL (both failure
signatures are `[]`), contradicting the claim and the source's own comment
that a parse failure "will cause a mismatch". -/
theorem claim_C3 :
    lowerStr (pathSuffix "x.dacpac") ∈ ZIP_EXTENSIONS ∧
    (fun _ : List Nat => (none : Option (List ZipMember))) [0] = none ∧
    ([0] : List Nat) ≠ [1] ∧
    bytes_equal (fun _ => none) [0] [1] "x.dacpac" = true :=
  ⟨by decide, rfl, by decide, by decide⟩

/-- C4, evaluated on the claimed scenario: the selective deploy for
`B.Notebook` resolves the work order `[B.Notebook]` alone — `A.Lakehouse` is
NOT in the work set, because the probe key `"A.lakehouse"` is not lower-cased
while the name-index keys are.  Spelling the META reference in lower case
(`"a"`) yields the order the claim expects, confirming the dropped lookup is
the sole cause. -/
theorem claim_C4 :
    selective_deploy_order c4Tree "B.Notebook" = some ["B.Notebook"] ∧
    "A.Lakehouse" ∉ resolve_transitive (build_dependency_graph c4Tree) "B.Notebook" ∧
    selective_deploy_order c4TreeLower "B.Notebook" =
      some ["A.Lakehouse", "B.Notebook"] :=
  ⟨by decide, by decide, by decide⟩

theorem metadataOnly_not_noDeploy (t : String) (h : t ∈ METADATA_ONLY_TYPES) :
    t ∉ NO_DEPLOY_TYPES := by
  fin_cases h <;> decide

theorem process_item_repoKeys_mono (env : RemoteEnv)
    (parse : List Nat → Option (List ZipMember)) (st : DeployState)
    (it : WorkItem) :
    ∀ k ∈ st.repoKeys, k ∈ (process_item env parse st it).1.repoKeys := by
  intro k hk
  simp only [process_item]
  repeat' split
  all_goals first
    | exact hk
    | exact List.mem_cons_of_mem _ hk

theorem process_item_key_mem (env : RemoteEnv)
    (parse : List Nat → Option (List ZipMember)) (st : DeployState)
    (it : WorkItem) (hnd : it.itemType ∉ NO_DEPLOY_TYPES) :
    lookupKey it ∈ (process_item env parse st it).1.repoKeys := by
  simp only [process_item]
  rw [if_neg hnd]
  repeat' split
  all_goals exact List.mem_cons_self _ _

theorem process_item_no_deleteCall (env : RemoteEnv)
    (parse : List Nat → Option (List ZipMember)) (st : DeployState)
    (it : WorkItem) (i : String) :
    RemoteCall.deleteCall i ∉ (process_item env parse st it).2 := by
  simp only [process_item]
  repeat' split
  all_goals simp

theorem process_item_errors_mono (env : RemoteEnv)
    (parse : List Nat → Option (List ZipMember)) (st : DeployState)
    (it : WorkItem) :
    st.tally.errors ≤ (process_item env parse st it).1.tally.errors := by
  simp only [process_item]
  repeat' split
  all_goals simp only [Tally.addSkipped, Tally.addCreated, Tally.addDeployed,
    Tally.addErrors]
  all_goals omega

theorem deploy_items_repoKeys_mono (env : RemoteEnv)
    (parse : List Nat → Option (List ZipMember)) :
    ∀ (work : List WorkItem) (st : DeployState) (k : String × String),
      k ∈ st.repoKeys → k ∈ (deploy_items env parse work st).1.repoKeys := by
  intro work
  induction work with
  | nil => intro st k hk; exact hk
  | cons it rest ih =>
    intro st k hk
    simp only [deploy_items]
    exact ih _ k (process_item_repoKeys_mono env parse st it k hk)

theorem deploy_items_key_mem (env : RemoteEnv)
    (parse : List Nat → Option (List ZipMember)) :
    ∀ (work : List WorkItem) (st : DeployState) (it : WorkItem),
      it ∈ work → it.itemType ∉ NO_DEPLOY_TYPES →
      lookupKey it ∈ (deploy_items env parse work st).1.repoKeys := by
  intro work
  induction work with
  | nil => intro st it h; simp at h
  | cons it0 rest ih =>
    intro st it hmem hnd
    simp only [deploy_items]
    rcases List.mem_cons.mp hmem with rfl | h
    · exact deploy_items_repoKeys_mono env parse rest _ _
        (process_item_key_mem env parse st it hnd)
    · exact ih _ it h hnd

theorem deploy_items_no_deleteCall (env : RemoteEnv)
    (parse : List Nat → Option (List ZipMember)) :
    ∀ (work : List WorkItem) (st : DeployState) (i : String),
      RemoteCall.deleteCall i ∉ (deploy_items env parse work st).2 := by
  intro work
  induction work with
  | nil => intro st i h; simp [deploy_items] at h
  | cons it rest ih =>
    intro st i h
    simp only [deploy_items] at h
    rcases List.mem_append.mp h with h' | h'
    · exact process_item_no_deleteCall env parse st it i h'
    · exact ih _ i h'

theorem deploy_items_errors_mono (env : RemoteEnv)
    (parse : List Nat → Option (List ZipMember)) :
    ∀ (work : List WorkItem) (st : DeployState),
      st.tally.errors ≤ (deploy_items env parse work st).1.tally.errors := by
  intro work
  induction work with
  | nil => intro st; exact le_refl _
  | cons it rest ih =>
    intro st
    simp only [deploy_items]
    exact le_trans (process_item_errors_mono env parse st it) (ih _)

theorem delete_phase_errors_mono (env : RemoteEnv) :
    ∀ (l : List WsItem) (st : DeployState),
      st.tally.errors ≤ (delete_phase env l st).1.tally.errors := by
  intro l
  induction l with
  | nil => intro st; exact le_refl _
  | cons ws rest ih =>
    intro st
    simp only [delete_phase]
    repeat' split
    · exact ih st
    · exact ih st
    · exact le_trans (by simp [Tally.addDeleted]) (ih _)
    · exact le_trans (by simp [Tally.addErrors]) (ih _)

theorem delete_phase_call_origin (env : RemoteEnv) :
    ∀ (l : List WsItem) (st : DeployState) (i : String),
      RemoteCall.deleteCall i ∈ (delete_phase env l st).2 →
      ∃ ws ∈ l, ws.id = i ∧ wsKeyOf ws ∉ st.repoKeys := by
  intro l
  induction l with
  | nil => intro st i h; simp [delete_phase] at h
  | cons ws rest ih =>
    intro st i h
    simp only [delete_phase] at h
    by_cases h1 : ws.wsType ∈ NO_DEPLOY_TYPES
    · rw [if_pos h1] at h
      obtain ⟨ws', hmem, hid, hkey⟩ := ih st i h
      exact ⟨ws', List.mem_cons_of_mem _ hmem, hid, hkey⟩
    · rw [if_neg h1] at h
      by_cases h2 : wsKeyOf ws ∈ st.repoKeys
      · rw [if_pos h2] at h
        obtain ⟨ws', hmem, hid, hkey⟩ := ih st i h
        exact ⟨ws', List.mem_cons_of_mem _ hmem, hid, hkey⟩
      · rw [if_neg h2] at h
        cases hdel : env.deleteIt ws.id with
        | ok =>
          rw [hdel] at h
          rcases List.mem_cons.mp h with heq | hmem
          · injection heq with hi
            exact ⟨ws, List.mem_cons_self _ _, hi.symm, h2⟩
          · obtain ⟨ws', hmem', hid, hkey⟩ :=
              ih ⟨st.existing, st.repoKeys, st.tally.addDeleted⟩ i hmem
            exact ⟨ws', List.mem_cons_of_mem _ hmem', hid, hkey⟩
        | failure msg =>
          rw [hdel] at h
          rcases List.mem_cons.mp h with heq | hmem
          · injection heq with hi
            exact ⟨ws, List.mem_cons_self _ _, hi.symm, h2⟩
          · obtain ⟨ws', hmem', hid, hkey⟩ :=
              ih ⟨st.existing, st.repoKeys, st.tally.addErrors⟩ i hmem
            exact ⟨ws', List.mem_cons_of_mem _ hmem', hid, hkey⟩

theorem delete_phase_deletes (env : RemoteEnv) :
    ∀ (l : List WsItem) (st : DeployState) (ws : WsItem),
      ws ∈ l → ws.wsType ∉ NO_DEPLOY_TYPES → wsKeyOf ws ∉ st.repoKeys →
      RemoteCall.deleteCall ws.id ∈ (delete_phase env l st).2 := by
  intro l
  induction l with
  | nil => intro st ws h; simp at h
  | cons w rest ih =>
    intro st ws hmem hnd hkey
    simp only [delete_phase]
    rcases List.mem_cons.mp hmem with rfl | hmem'
    · rw [if_neg hnd, if_neg hkey]
      cases env.deleteIt ws.id
      · exact List.mem_cons_self _ _
      · exact List.mem_cons_self _ _
    · by_cases h1 : w.wsType ∈ NO_DEPLOY_TYPES
      · rw [if_pos h1]
        exact ih st ws hmem' hnd hkey
      · rw [if_neg h1]
        by_cases h2 : wsKeyOf w ∈ st.repoKeys
        · rw [if_pos h2]
          exact ih st ws hmem' hnd hkey
        · rw [if_neg h2]
          cases env.deleteIt w.id
          · exact List.mem_cons_of_mem _
              (ih ⟨st.existing, st.repoKeys, st.tally.addDeleted⟩ ws hmem' hnd hkey)
          · exact List.mem_cons_of_mem _
              (ih ⟨st.existing, st.repoKeys, st.tally.addErrors⟩ ws hmem' hnd hkey)

/-- Counterexample to C1: a one-item run whose only failure is the
`UpdateFailed` rejection ends with error count 1 — not 0 — no skip is
recorded for the item, and the process exits with failure status. -/
theorem claim_C1_counterexample :
    (full_deploy c1Env (fun _ => none) c1Work c1St0 []).1.tally.errors = 1 ∧
    (full_deploy c1Env (fun _ => none) c1Work c1St0 []).1.tally.skipped = 0 ∧
    exit_failure (full_deploy c1Env (fun _ => none) c1Work c1St0 []).1 = true :=
  ⟨by decide, by decide, by decide⟩

/-- C1 as amended: when `updateDefinition` raises the `UpdateFailed` error
kind, the orchestrator records the item as an ERROR (not a skip) in the
tally, continues the run with the remaining items, and the final error count
is positive, so the process exits with failure status. -/
theorem claim_C1 (env : RemoteEnv) (parse : List Nat → Option (List ZipMember))
    (st : DeployState) (it : WorkItem) (rest : List WorkItem)
    (wsFull : List WsItem) (itemId msg : String)
    (hnd : it.itemType ∉ NO_DEPLOY_TYPES)
    (hmd : it.itemType ∉ METADATA_ONLY_TYPES)
    (hparts : ¬ it.parts = [])
    (hex : alookup (lookupKey it) st.existing = some itemId)
    (hmatch : definitions_match parse it.parts (env.getDef itemId it.itemType) = false)
    (hupd : env.update itemId it.parts it.itemType = .updateFailed msg) :
    (process_item env parse st it).1.tally.errors = st.tally.errors + 1 ∧
    (process_item env parse st it).1.tally.skipped = st.tally.skipped ∧
    (deploy_items env parse (it :: rest) st).1 =
      (deploy_items env parse rest (process_item env parse st it).1).1 ∧
    st.tally.errors + 1 ≤ (full_deploy env parse (it :: rest) st wsFull).1.tally.errors ∧
    exit_failure (full_deploy env parse (it :: rest) st wsFull).1 = true := by
  have hpi : process_item env parse st it =
      (⟨st.existing, lookupKey it :: st.repoKeys, st.tally.addErrors⟩,
        [.getDefinition itemId it.itemType,
         .updateDef itemId it.parts it.itemType]) := by
    simp only [process_item]
    rw [if_neg hnd, if_neg hmd, if_neg hparts, hex]
    simp [hmatch, hupd]
  have herr : st.tally.errors + 1 ≤
      (full_deploy env parse (it :: rest) st wsFull).1.tally.errors := by
    simp only [full_deploy, deploy_items]
    refine le_trans ?_ (delete_phase_errors_mono env wsFull _)
    refine le_trans ?_ (deploy_items_errors_mono env parse rest _)
    rw [hpi]
    simp [Tally.addErrors]
  refine ⟨by rw [hpi]; simp [Tally.addErrors], by rw [hpi]; simp [Tally.addErrors],
    by simp only [deploy_items], herr, ?_⟩
  simp only [exit_failure, decide_eq_true_eq]
  omega

/-- Witness for C1 at the concrete one-item run. -/
theorem claim_C1_witness :
    (("Notebook" : String) ∉ NO_DEPLOY_TYPES ∧
      ("Notebook" : String) ∉ METADATA_ONLY_TYPES ∧
      alookup (lowerStr "X", lowerStr "Notebook") c1St0.existing = some "id9" ∧
      c1Env.update "id9" [⟨"x.py", [1], "InlineBase64"⟩] "Notebook" =
        .updateFailed "updateDefinition failed (400): unsupported for this item type") ∧
    (process_item c1Env (fun _ => none) c1St0
      ⟨"X", "Notebook", [⟨"x.py", [1], "InlineBase64"⟩]⟩).1.tally.errors =
        c1St0.tally.errors + 1 ∧
    exit_failure (full_deploy c1Env (fun _ => none)
      (⟨"X", "Notebook", [⟨"x.py", [1], "InlineBase64"⟩]⟩ :: []) c1St0 []).1 = true := by
  have h := claim_C1 c1Env (fun _ => none) c1St0
    ⟨"X", "Notebook", [⟨"x.py", [1], "InlineBase64"⟩]⟩ [] [] "id9"
    "updateDefinition failed (400): unsupported for this item type"
    (by decide) (by decide) (by decide) (by decide) (by decide) rfl
  exact ⟨⟨by decide, by decide, by decide, rfl⟩, h.1, h.2.2.2.2⟩

/-- Counterexample to C2: in a full-mode run over an empty local tree, the
reconciliation-delete step DOES delete a remote `Lakehouse` — a MetadataOnly
type — whose identity key is absent from the local tree. -/
theorem claim_C2_counterexample :
    ("Lakehouse" : String) ∈ METADATA_ONLY_TYPES ∧
    (full_deploy c2Env (fun _ => none) [] ⟨[], [], ⟨0, 0, 0, 0, 0⟩⟩ [c2Ws]).2 =
      [RemoteCall.deleteCall "lkh1"] ∧
    (full_deploy c2Env (fun _ => none) [] ⟨[], [], ⟨0, 0, 0, 0, 0⟩⟩
      [c2Ws]).1.tally.deleted = 1 :=
  ⟨by decide, by decide, by decide⟩

/-- C2 as amended: the deploy loop never updates or deletes a MetadataOnly
item — present items are left untouched (a recorded skip, no remote call)
and absent ones are only created — but the full-mode reconciliation-delete
step DOES delete remote items of MetadataOnly types whose identity key is
absent from the local tree; only `NO_DEPLOY_TYPES` are exempt from
deletion. -/
theorem claim_C2 (env : RemoteEnv) (parse : List Nat → Option (List ZipMember))
    (st : DeployState) (it : WorkItem)
    (hmd : it.itemType ∈ METADATA_ONLY_TYPES) :
    ((∀ c ∈ (process_item env parse st it).2,
        (∀ i ps ty, c ≠ .updateDef i ps ty) ∧ (∀ i, c ≠ .deleteCall i)) ∧
      (∀ i, alookup (lookupKey it) st.existing = some i →
        process_item env parse st it =
          (⟨st.existing, lookupKey it :: st.repoKeys, st.tally.addSkipped⟩, []))) ∧
    (∀ (l : List WsItem) (ws : WsItem), ws ∈ l →
      ws.wsType ∈ METADATA_ONLY_TYPES → wsKeyOf ws ∉ st.repoKeys →
      RemoteCall.deleteCall ws.id ∈ (delete_phase env l st).2) := by
  have hnd := metadataOnly_not_noDeploy _ hmd
  refine ⟨⟨?_, ?_⟩, ?_⟩
  · intro c hc
    simp only [process_item] at hc
    rw [if_neg hnd, if_pos hmd] at hc
    rcases halo : alookup (lookupKey it) st.existing with _ | i
    · rw [halo] at hc
      cases hco : env.createNoDef it.displayName it.itemType with
      | ok newId =>
        rw [hco] at hc
        simp at hc
        subst hc
        exact ⟨fun _ _ _ => by simp, fun _ => by simp⟩
      | failure m =>
        rw [hco] at hc
        simp at hc
        subst hc
        exact ⟨fun _ _ _ => by simp, fun _ => by simp⟩
    · rw [halo] at hc
      simp at hc
  · intro i hi
    simp only [process_item]
    rw [if_neg hnd, if_pos hmd, hi]
  · intro l ws hmem hwmd hkey
    exact delete_phase_deletes env l st ws hmem
      (metadataOnly_not_noDeploy _ hwmd) hkey

/-- Witness for C2 at a concrete present Lakehouse item: left untouched and
recorded as a skip. -/
theorem claim_C2_witness :
    (("Lakehouse" : String) ∈ METADATA_ONLY_TYPES ∧
      alookup (lowerStr "S", lowerStr "Lakehouse")
        [((("s" : String), ("lakehouse" : String)), ("id1" : String))] = some "id1") ∧
    process_item c2Env (fun _ => none)
      ⟨[(("s", "lakehouse"), "id1")], [], ⟨0, 0, 0, 0, 0⟩⟩ ⟨"S", "Lakehouse", []⟩ =
      (⟨[(("s", "lakehouse"), "id1")], [("s", "lakehouse")], ⟨0, 0, 0, 1, 0⟩⟩, []) := by
  exact ⟨⟨by decide, by decide⟩,
    (claim_C2 c2Env (fun _ => none)
      ⟨[(("s", "lakehouse"), "id1")], [], ⟨0, 0, 0, 0, 0⟩⟩ ⟨"S", "Lakehouse", []⟩
      (by decide)).1.2 "id1" (by decide)⟩

/-- C7: the content comparator returns not-equal whenever the remote
definition is absent, and consequently the orchestrator attempts an update
(issues the `updateDefinition` call) for an existing deployable item whose
remote definition could not be fetched. -/
theorem claim_C7 (parse : List Nat → Option (List ZipMember)) (parts : List Part)
    (env : RemoteEnv) (st : DeployState) (it : WorkItem) (itemId : String) :
    definitions_match parse parts none = false ∧
    (it.itemType ∉ NO_DEPLOY_TYPES → it.itemType ∉ METADATA_ONLY_TYPES →
      ¬ it.parts = [] → alookup (lookupKey it) st.existing = some itemId →
      env.getDef itemId it.itemType = none →
      RemoteCall.updateDef itemId it.parts it.itemType ∈
        (process_item env parse st it).2) := by
  refine ⟨rfl, ?_⟩
  intro hnd hmd hparts hex hgd
  simp only [process_item]
  rw [if_neg hnd, if_neg hmd, if_neg hparts, hex]
  have hdm : definitions_match parse it.parts (env.getDef itemId it.itemType) = false := by
    rw [hgd]; rfl
  simp only [hdm, Bool.false_eq_true, if_false]
  cases env.update itemId it.parts it.itemType <;> simp

/-- Witness for C7: a concrete existing item with an unfetchable remote
definition gets an update attempt. -/
theorem claim_C7_witness :
    (("Notebook" : String) ∉ NO_DEPLOY_TYPES ∧
      ("Notebook" : String) ∉ METADATA_ONLY_TYPES ∧
      alookup (lowerStr "Y", lowerStr "Notebook")
        [((("y" : String), ("notebook" : String)), ("id7" : String))] = some "id7") ∧
    RemoteCall.updateDef "id7" [⟨"y.py", [2], "InlineBase64"⟩] "Notebook" ∈
      (process_item
        (⟨fun _ _ => .ok "", fun _ _ _ => .ok "", fun _ _ => none,
          fun _ _ _ => .ok, fun _ => .ok⟩ : RemoteEnv)
        (fun _ => none)
        ⟨[(("y", "notebook"), "id7")], [], ⟨0, 0, 0, 0, 0⟩⟩
        ⟨"Y", "Notebook", [⟨"y.py", [2], "InlineBase64"⟩]⟩).2 := by
  exact ⟨⟨by decide, by decide, by decide⟩,
    (claim_C7 (fun _ => none) []
      (⟨fun _ _ => .ok "", fun _ _ _ => .ok "", fun _ _ => none,
        fun _ _ _ => .ok, fun _ => .ok⟩ : RemoteEnv)
      ⟨[(("y", "notebook"), "id7")], [], ⟨0, 0, 0, 0, 0⟩⟩
      ⟨"Y", "Notebook", [⟨"y.py", [2], "InlineBase64"⟩]⟩ "id7").2
      (by decide) (by decide) (by decide) (by decide) rfl⟩

/-- C10: a Full-type item with an empty parts list is processed with no
remote call and a recorded skip, its identity key is still recorded in
`repo_keys`, and therefore the reconciliation-delete step of a full run does
not delete the remote item carrying that identity key. -/
theorem claim_C10 (env : RemoteEnv) (parse : List Nat → Option (List ZipMember))
    (work : List WorkItem) (st0 : DeployState) (wsFull : List WsItem)
    (it : WorkItem)
    (hnd : it.itemType ∉ NO_DEPLOY_TYPES)
    (hmd : it.itemType ∉ METADATA_ONLY_TYPES)
    (hparts : it.parts = []) (hwork : it ∈ work) :
    (∀ st : DeployState, process_item env parse st it =
      (⟨st.existing, lookupKey it :: st.repoKeys, st.tally.addSkipped⟩, [])) ∧
    lookupKey it ∈ (deploy_items env parse work st0).1.repoKeys ∧
    (∀ ws : WsItem, ws ∈ wsFull →
      (∀ ws' ∈ wsFull, ws'.id = ws.id → wsKeyOf ws' = lookupKey it) →
      RemoteCall.deleteCall ws.id ∉ (full_deploy env parse work st0 wsFull).2) := by
  refine ⟨?_, ?_, ?_⟩
  · intro st
    simp only [process_item]
    rw [if_neg hnd, if_neg hmd, if_pos hparts]
  · exact deploy_items_key_mem env parse work st0 it hwork hnd
  · intro ws hws hid hdel
    simp only [full_deploy] at hdel
    rcases List.mem_append.mp hdel with h' | h'
    · exact deploy_items_no_deleteCall env parse work st0 ws.id h'
    · obtain ⟨ws', hmem', hid', hkey'⟩ := delete_phase_call_origin env wsFull _ ws.id h'
      exact hkey' ((hid ws' hmem' hid') ▸
        deploy_items_key_mem env parse work st0 it hwork hnd)

/-- Witness for C10: a concrete empty-parts Notebook next to a remote item
with the same identity key — skipped, key recorded, not deleted. -/
theorem claim_C10_witness :
    (("Notebook" : String) ∉ NO_DEPLOY_TYPES ∧
      ("Notebook" : String) ∉ METADATA_ONLY_TYPES ∧
      (⟨"Z", "Notebook", []⟩ : WorkItem) ∈ [(⟨"Z", "Notebook", []⟩ : WorkItem)]) ∧
    lookupKey ⟨"Z", "Notebook", []⟩ ∈
      (deploy_items c2Env (fun _ => none) [⟨"Z", "Notebook", []⟩]
        ⟨[], [], ⟨0, 0, 0, 0, 0⟩⟩).1.repoKeys ∧
    RemoteCall.deleteCall "idz" ∉
      (full_deploy c2Env (fun _ => none) [⟨"Z", "Notebook", []⟩]
        ⟨[], [], ⟨0, 0, 0, 0, 0⟩⟩ [⟨"idz", "Z", "Notebook"⟩]).2 := by
  have h := claim_C10 c2Env (fun _ => none) [⟨"Z", "Notebook", []⟩]
    ⟨[], [], ⟨0, 0, 0, 0, 0⟩⟩ [⟨"idz", "Z", "Notebook"⟩] ⟨"Z", "Notebook", []⟩
    (by decide) (by decide) rfl (by simp)
  refine ⟨⟨by decide, by decide, by simp⟩, h.2.1, ?_⟩
  exact h.2.2 ⟨"idz", "Z", "Notebook"⟩ (by simp)
    (fun ws' hws' _ => by
      simp only [List.mem_singleton] at hws'
      subst hws'
      rfl)

theorem splitLast_none_iff (c : Char) :
    ∀ (l : List Char), splitLast c l = none ↔ c ∉ l := by
  intro l
  induction l with
  | nil => simp [splitLast]
  | cons a as ih =>
    cases hs : splitLast c as with
    | some pq =>
      obtain ⟨p, q⟩ := pq
      have hmem : c ∈ as := by
        by_contra hc
        exact absurd (ih.mpr hc) (by simp [hs])
      simp only [splitLast, hs]
      constructor
      · intro h; exact absurd h (by simp)
      · intro h; exact absurd (List.mem_cons_of_mem _ hmem) h
    | none =>
      have hnm : c ∉ as := ih.mp hs
      simp only [splitLast, hs]
      by_cases hac : a = c
      · subst hac
        simp
      · simp only [hac, if_false]
        constructor
        · intro _ h
          rcases List.mem_cons.mp h with h' | h'
          · exact hac h'.symm
          · exact hnm h'
        · intro _; trivial

theorem splitLast_some_spec (c : Char) :
    ∀ (l p q : List Char), splitLast c l = some (p, q) →
      l = p ++ c :: q ∧ c ∉ q := by
  intro l
  induction l with
  | nil => intro p q h; simp [splitLast] at h
  | cons a as ih =>
    intro p q h
    cases hs : splitLast c as with
    | some pq =>
      obtain ⟨p', q'⟩ := pq
      rw [splitLast, hs] at h
      simp only [Option.some.injEq, Prod.mk.injEq] at h
      obtain ⟨hp, hq⟩ := h
      obtain ⟨hdec, hnq⟩ := ih p' q' hs
      subst hp hq
      exact ⟨by rw [hdec]; simp, hnq⟩
    | none =>
      rw [splitLast, hs] at h
      by_cases hac : a = c
      · rw [if_pos hac] at h
        simp only [Option.some.injEq, Prod.mk.injEq] at h
        obtain ⟨hp, hq⟩ := h
        subst hp hq
        exact ⟨by simp [hac], (splitLast_none_iff c as).mp hs⟩
      · rw [if_neg hac] at h
        exact absurd h (by simp)

theorem splitLastDot_some {s d t : String} (h : splitLastDot s = some (d, t)) :
    s = d ++ "." ++ t ∧ '.' ∉ t.data := by
  rw [splitLastDot] at h
  cases hs : splitLast '.' s.data with
  | none => rw [hs] at h; exact absurd h (by simp)
  | some pq =>
    obtain ⟨p, q⟩ := pq
    rw [hs] at h
    simp only [Option.some.injEq, Prod.mk.injEq] at h
    obtain ⟨hd, ht⟩ := h
    obtain ⟨hdec, hnq⟩ := splitLast_some_spec '.' s.data p q hs
    constructor
    · apply String.ext
      rw [hdec, ← hd, ← ht]
      simp [String.data_append]
    · rw [← ht]; exact hnq

theorem splitLastDot_none {s : String} (h : '.' ∉ s.data) :
    splitLastDot s = none := by
  rw [splitLastDot, (splitLast_none_iff '.' s.data).mpr h]

theorem mem_upsert {α β : Type} [DecidableEq α] (k : α) (v : β) :
    ∀ (l : List (α × β)) (p : α × β), p ∈ upsert k v l → p = (k, v) ∨ p ∈ l := by
  intro l
  induction l with
  | nil => intro p hp; simpa [upsert] using hp
  | cons q rest ih =>
    intro p hp
    obtain ⟨k', v'⟩ := q
    by_cases hk : k' = k
    · rw [upsert, if_pos hk] at hp
      rcases List.mem_cons.mp hp with h | h
      · exact Or.inl h
      · exact Or.inr (List.mem_cons_of_mem _ h)
    · rw [upsert, if_neg hk] at hp
      rcases List.mem_cons.mp hp with h | h
      · exact Or.inr (h ▸ List.mem_cons_self _ _)
      · rcases ih p h with h' | h'
        · exact Or.inl h'
        · exact Or.inr (List.mem_cons_of_mem _ h')

theorem build_graph_keys_dotted (tree : List LocalItem) :
    ∀ p ∈ build_dependency_graph tree, '.' ∈ (p.1 : String).data := by
  have hidx : ∀ (l : List LocalItem)
      (ix : List (String × String) × List (String × List String)),
      (∀ q ∈ ix.1, '.' ∈ (q.2 : String).data) →
      ∀ q ∈ (l.foldl
        (fun (ix : List (String × String) × List (String × List String)) it =>
          match splitLastDot it.folder with
          | none => ix
          | some (_, item_type) =>
            (upsert (lowerStr it.folder) it.folder ix.1,
             upsertAppend (lowerStr item_type) it.folder ix.2)) ix).1,
        '.' ∈ (q.2 : String).data := by
    intro l
    induction l with
    | nil => intro ix hix q hq; exact hix q hq
    | cons it rest ih =>
      intro ix hix q hq
      simp only [List.foldl_cons] at hq
      cases hs : splitLastDot it.folder with
      | none =>
        rw [hs] at hq
        exact ih ix hix q hq
      | some dt =>
        obtain ⟨d0, t0⟩ := dt
        rw [hs] at hq
        refine ih _ ?_ q hq
        intro q' hq'
        rcases mem_upsert (lowerStr it.folder) it.folder ix.1 q' hq' with h | h
        · subst h
          obtain ⟨hdec, _⟩ := splitLastDot_some hs
          rw [hdec]
          simp [String.data_append]
        · exact hix q' h
  intro p hp
  simp only [build_dependency_graph, List.mem_map] at hp
  obtain ⟨folder, hfolder, hpe⟩ := hp
  have h1 : '.' ∈ folder.data := by
    obtain ⟨q, hq, hqf⟩ := hfolder
    have := hidx (sortTree tree) ([], []) (by intro q' hq'; simp at hq') q hq
    rw [hqf] at this
    exact this
  have hp1 : p.1 = folder := by
    cases hsd : splitLastDot folder with
    | none => rw [hsd] at hpe; rw [← hpe]
    | some dt =>
      obtain ⟨d0, t0⟩ := dt
      rw [hsd] at hpe
      cases htf : treeFind (sortTree tree) folder with
      | none => rw [htf] at hpe; rw [← hpe]
      | some it =>
        rw [htf] at hpe
        by_cases h1 : lowerStr t0 = "notebook"
        · rw [← hpe]; simp [h1]
        · by_cases h2 : lowerStr t0 = "semanticmodel"
          · rw [← hpe]; simp [h1, h2]
          · by_cases h3 : lowerStr t0 = "report"
            · rw [← hpe]; simp [h1, h2, h3]
            · rw [← hpe]; simp [h1, h2, h3]
  rw [hp1]
  exact h1

/-- C8: the identity key of every yielded item folder is the last-dot split
of the folder name (the folder is `displayName ++ "." ++ itemType` with no
dot in the type suffix), and a folder name without a dot is excluded from
the deploy iteration and never appears as a node of the dependency graph. -/
theorem claim_C8 (folders : List String) (tree : List LocalItem) (f : String) :
    (∀ d t, (d, t, f) ∈ iter_item_dirs folders →
      f = d ++ "." ++ t ∧ '.' ∉ t.data) ∧
    ('.' ∉ f.data →
      (∀ d t, (d, t, f) ∉ iter_item_dirs folders) ∧
      (∀ deps, (f, deps) ∉ build_dependency_graph tree)) := by
  constructor
  · intro d t h
    simp only [iter_item_dirs, List.mem_filterMap] at h
    obtain ⟨a, _, hfa⟩ := h
    cases hs : splitLastDot a with
    | none => rw [hs] at hfa; exact absurd hfa (by simp)
    | some dt =>
      obtain ⟨d', t'⟩ := dt
      rw [hs] at hfa
      simp only [Option.some.injEq, Prod.mk.injEq] at hfa
      obtain ⟨hd, ht, hf⟩ := hfa
      subst hd ht hf
      exact splitLastDot_some hs
  · intro hnd
    constructor
    · intro d t h
      simp only [iter_item_dirs, List.mem_filterMap] at h
      obtain ⟨a, _, hfa⟩ := h
      cases hs : splitLastDot a with
      | none => rw [hs] at hfa; exact absurd hfa (by simp)
      | some dt =>
        obtain ⟨d', t'⟩ := dt
        rw [hs] at hfa
        simp only [Option.some.injEq, Prod.mk.injEq] at hfa
        obtain ⟨_, _, hf⟩ := hfa
        subst hf
        rw [splitLastDot_none hnd] at hs
        exact absurd hs (by simp)
    · intro deps h
      exact hnd (build_graph_keys_dotted tree (f, deps) h)

/-- Witness for C8: `My.Report.Report` splits at the LAST dot, and the
dot-less folder `nodot` is excluded from the iteration and the graph. -/
theorem claim_C8_witness :
    (("My.Report", "Report", "My.Report.Report") ∈
        iter_item_dirs ["My.Report.Report", "nodot"] ∧
      "My.Report.Report" = "My.Report" ++ "." ++ "Report" ∧
      '.' ∉ "Report".data) ∧
    ('.' ∉ "nodot".data ∧
      (∀ d t, (d, t, "nodot") ∉ iter_item_dirs ["My.Report.Report", "nodot"]) ∧
      (∀ deps, ("nodot", deps) ∉
        build_dependency_graph [⟨"nodot", [], false, []⟩])) := by
  have h1 := (claim_C8 ["My.Report.Report", "nodot"] [⟨"nodot", [], false, []⟩]
    "My.Report.Report").1 "My.Report" "Report" (by decide)
  have h2 := (claim_C8 ["My.Report.Report", "nodot"] [⟨"nodot", [], false, []⟩]
    "nodot").2 (by decide)
  exact ⟨⟨by decide, h1.1, h1.2⟩, by decide, h2.1, h2.2⟩

end Deploy
